import Mathlib

/-!
# Verification of the BlinkDecoder Morse encoder/decoder

Shallow embedding of `src/Blink.py` (class `BlinkMorseCode`) and proofs of the
frozen claims about it.

Modelling conventions:

* Python strings are modelled as Lean `String` at the interface and as
  `List Char` internally (`String.data`).
* Python `float` wall-clock timestamps (`time.time()`) are modelled as exact
  rationals `ℚ`; the threshold constants `0.4`, `0.8`, `1.0` are exact in both
  worlds, so the comparisons agree.
* `process_frame` reads `time.time()` several times per call (lines 96, 99,
  110, 113, 117, 118, 122 of the source); the model uses a single timestamp
  `t` per processed frame, the standard idealisation of one sampling instant
  per frame.
* The CV plumbing (drawing, `cv2.putText`, EAR computation) has no effect on
  the encoder state and is omitted; the boolean `face_detected` models
  `results.multi_face_landmarks` being non-empty and `is_closed` models
  `left_ear < blink_threshold and right_ear < blink_threshold`.
-/

-- Batteries marks these rational primitives irreducible; re-open them so that
-- concrete encoder runs can be evaluated by `decide`.
attribute [local semireducible] Rat.sub Rat.ofScientific

/-! ## Python string primitives

`str.strip()`, `str.split("   ")`, `str.split()` and `str.endswith` as used by
`decode_morse_code` and `process_frame`, modelled on `List Char`. -/

/-- The six ASCII whitespace characters recognised by Python's `str.strip()`
and argument-less `str.split()`. -/
def isPySpace (c : Char) : Bool :=
  c = ' ' || c = '\t' || c = '\n' || c = '\r' || c = '\x0b' || c = '\x0c'

/-- Python `str.strip()`: remove leading and trailing whitespace. -/
def pyStripL (l : List Char) : List Char :=
  ((l.dropWhile isPySpace).reverse.dropWhile isPySpace).reverse

/-- Prepend a character to the first chunk of a split result. -/
def consHead (c : Char) : List (List Char) → List (List Char)
  | [] => [[c]]
  | w :: ws => (c :: w) :: ws

/-- Python `str.split("   ")`: split on each leftmost occurrence of three
consecutive spaces, keeping empty chunks. -/
def split3 : List Char → List (List Char)
  | [] => [[]]
  | [c] => [[c]]
  | [c1, c2] => [[c1, c2]]
  | c1 :: c2 :: c3 :: rest =>
    if c1 = ' ' ∧ c2 = ' ' ∧ c3 = ' ' then
      [] :: split3 rest
    else
      consHead c1 (split3 (c2 :: c3 :: rest))

/-- Worker for Python's argument-less `str.split()`: split on runs of
whitespace, dropping empty chunks; `acc` is the current chunk, reversed. -/
def splitWSAux : List Char → List Char → List (List Char)
  | acc, [] => if acc.isEmpty then [] else [acc.reverse]
  | acc, c :: rest =>
    if isPySpace c then
      if acc.isEmpty then splitWSAux [] rest
      else acc.reverse :: splitWSAux [] rest
    else splitWSAux (c :: acc) rest

/-- Python's argument-less `str.split()`. -/
def splitWSL (l : List Char) : List (List Char) := splitWSAux [] l

/-- Python `s.endswith(suffix)`. -/
def pyEndsWith (s suffix : String) : Bool :=
  suffix.data.isSuffixOf s.data

/-! ## The code table (`self.morse_code_map`, source lines 25–33) -/

/-- The Morse code table, in the source's insertion order. -/
def morse_code_map : List (String × String) :=
  [(".-", "A"), ("-...", "B"), ("-.-.", "C"), ("-..", "D"), (".", "E"),
   ("..-.", "F"), ("--.", "G"), ("....", "H"), ("..", "I"), (".---", "J"),
   ("-.-", "K"), (".-..", "L"), ("--", "M"), ("-.", "N"), ("---", "O"),
   (".--.", "P"), ("--.-", "Q"), (".-.", "R"), ("...", "S"), ("-", "T"),
   ("..-", "U"), ("...-", "V"), (".--", "W"), ("-..-", "X"), ("-.--", "Y"),
   ("--..", "Z"), ("-----", "0"), (".----", "1"), ("..---", "2"),
   ("...--", "3"), ("....-", "4"), (".....", "5"), ("-....", "6"),
   ("--...", "7"), ("---..", "8"), ("----.", "9"), (".-.-.-", "."),
   ("-.-.--", "!"), ("--..--", ",")]

/-- The code table with keys and values as character lists. -/
def mapL : List (List Char × List Char) :=
  morse_code_map.map (fun p => (p.1.data, p.2.data))

/-- `self.morse_code_map.get(letter, " ◊ ")` (source line 59): table lookup
with the three-character placeholder `" ◊ "` as default. -/
def mapGetL (letter : List Char) : List Char :=
  (mapL.lookup letter).getD " ◊ ".data

/-! ## The decoder (`decode_morse_code`, source lines 48–61) -/

/-- `decode_morse_code` on character lists: split the stripped buffer into
words on `"   "`, each word into letters on whitespace, look each letter up,
concatenate, put a single `' '` after each word, and strip the result. -/
def decodeL (morse : List Char) : List Char :=
  let words := split3 (pyStripL morse)
  let decoded := words.foldl
    (fun dec word =>
      ((splitWSL word).foldl (fun d letter => d ++ mapGetL letter) dec) ++ [' '])
    []
  pyStripL decoded

/-- `BlinkMorseCode.decode_morse_code` (source lines 48–61). -/
def decode_morse_code (morse : String) : String :=
  String.mk (decodeL morse.data)

/-! ## The encoder (`__init__` state and `process_frame`, source lines 22–24
and 63–133) -/

/-- The mutable fields of `BlinkMorseCode` touched by `process_frame`. -/
structure EncoderState where
  blink_start_time : ℚ
  last_blink_end : ℚ
  morse_code : String
deriving DecidableEq, Repr

/-- `__init__` (source lines 22–24): `blink_start_time = 0` (the sentinel for
"no closure in progress"), `last_blink_end = time.time()` (the session start
instant `t0`), empty buffer. -/
def initEncoder (t0 : ℚ) : EncoderState :=
  { blink_start_time := 0, last_blink_end := t0, morse_code := "" }

/-- Blink detection (source lines 94–110): on a closed sample start a closure
if none is pending; on an open sample ending a pending closure, classify its
duration (`< 0.4` dot, `< 0.8` dash, otherwise nothing) and reset the gap
timer. -/
def blink_detection (s : EncoderState) (is_closed : Bool) (t : ℚ) : EncoderState :=
  if is_closed then
    if s.blink_start_time = 0 then { s with blink_start_time := t } else s
  else
    if s.blink_start_time > 0 then
      let blink_duration := t - s.blink_start_time
      let code :=
        if blink_duration < 0.4 then s.morse_code ++ "."
        else if blink_duration < 0.8 then s.morse_code ++ "-"
        else s.morse_code
      { blink_start_time := 0, last_blink_end := t, morse_code := code }
    else s

/-- Space detection (source lines 112–122): a gap `> 1.0` appends a word
space unless the buffer already ends with one, else a gap `> 0.8` appends a
letter space unless the buffer already ends with a space; an append resets
the gap timer. -/
def space_detection (s : EncoderState) (t : ℚ) : EncoderState :=
  if t - s.last_blink_end > 1.0 then
    if pyEndsWith s.morse_code "   " = false then
      { s with morse_code := s.morse_code ++ "   ", last_blink_end := t }
    else s
  else if t - s.last_blink_end > 0.8 then
    if pyEndsWith s.morse_code " " = false then
      { s with morse_code := s.morse_code ++ " ", last_blink_end := t }
    else s
  else s

/-- `BlinkMorseCode.process_frame` (source lines 63–133), restricted to its
effect on the encoder state: if a face was detected, run blink detection then
space detection at the frame's instant `t`; otherwise the state is untouched
(the whole body, lines 77–122, sits under `if results.multi_face_landmarks`).
-/
def process_frame (s : EncoderState) (face_detected is_closed : Bool) (t : ℚ) :
    EncoderState :=
  if face_detected then space_detection (blink_detection s is_closed t) t else s

/-- Feed a list of `(face_detected, is_closed, timestamp)` samples through
`process_frame`, as the `run` loop (source lines 146–157) does frame by
frame. -/
def runEncoder (s : EncoderState) (samples : List (Bool × Bool × ℚ)) : EncoderState :=
  samples.foldl (fun st x => process_frame st x.1 x.2.1 x.2.2) s

/-! ## Spec-side notions used to state the claims -/

/-- Join chunks with a separator (used to state the decoder's output shape
and the reference encoding of C5). -/
def joinWith (sep : List Char) : List (List Char) → List Char
  | [] => []
  | [w] => w
  | w :: ws => w ++ sep ++ joinWith sep ws

/-- The decoding of one buffer word: its letters (split on whitespace), each
looked up in the table, concatenated with no separator. -/
def decodeWordL (w : List Char) : List Char :=
  ((splitWSL w).map mapGetL).flatten

/-- The canonical Morse code of a character: the (unique) table key whose
value is that character; `[]` if the character is not covered. -/
def charToMorse (c : Char) : List Char :=
  ((mapL.find? (fun p => p.2 == [c])).map Prod.fst).getD []

/-- A character is covered by the code table if it appears as a table value
(A–Z, 0–9, and the three punctuation marks). -/
def covered (c : Char) : Prop := [c] ∈ mapL.map Prod.snd

instance (c : Char) : Decidable (covered c) :=
  inferInstanceAs (Decidable ([c] ∈ mapL.map Prod.snd))

/-- All characters appearing as table values, concretely enumerated. -/
def valueChars : List Char := (mapL.map Prod.snd).flatten

/-- Reference encoding, following the spec's words (C5): each character of
each word mapped to its canonical Morse string, letters joined by single
spaces, words joined by triple spaces. -/
def encWordL (w : List Char) : List Char := joinWith [' '] (w.map charToMorse)

/-- Reference encoding of a word list (the text's words, in order). -/
def encode_reference (ws : List (List Char)) : List Char :=
  joinWith [' ', ' ', ' '] (ws.map encWordL)

/-- No two adjacent blanks in the list; such a list contains no `"   "`
separator, so `split3` leaves it whole. -/
def noDouble : List Char → Prop
  | [] => True
  | [_] => True
  | c1 :: c2 :: rest => ¬ (c1 = ' ' ∧ c2 = ' ') ∧ noDouble (c2 :: rest)

/-! ## Encoder step lemmas -/

/-- `s ++ "" = s` for strings. -/
lemma str_append_empty (s : String) : s ++ "" = s :=
  String.ext (by simp)

/-- Left cancellation for string append. -/
lemma str_append_left_cancel {m a b : String} (h : m ++ a = m ++ b) : a = b := by
  have hd : m.data ++ a.data = m.data ++ b.data := by
    simpa using congrArg String.data h
  exact String.ext (List.append_cancel_left hd)

/-- Space detection at the very instant the gap timer was (re)set does
nothing: both gap conditions compare `0` against a positive threshold. -/
lemma space_detection_last (s : EncoderState) :
    space_detection s s.last_blink_end = s := by
  unfold space_detection
  norm_num

/-- An open sample ending a pending closure: the state after blink detection
has the classified symbol appended, a cleared sentinel, and the gap timer at
`t`. -/
lemma blink_detection_open_pending (s : EncoderState) (t : ℚ)
    (h : s.blink_start_time > 0) :
    blink_detection s false t =
      { blink_start_time := 0, last_blink_end := t,
        morse_code :=
          if t - s.blink_start_time < 0.4 then s.morse_code ++ "."
          else if t - s.blink_start_time < 0.8 then s.morse_code ++ "-"
          else s.morse_code } := by
  simp [blink_detection, h]

/-- An open sample with no pending closure leaves blink detection inert. -/
lemma blink_detection_open_idle (s : EncoderState) (t : ℚ)
    (h : ¬ s.blink_start_time > 0) :
    blink_detection s false t = s := by
  simp [blink_detection, h]

/-- A closed sample never changes the buffer or the gap timer in blink
detection. -/
lemma blink_detection_closed_fields (s : EncoderState) (t : ℚ) :
    (blink_detection s true t).morse_code = s.morse_code ∧
    (blink_detection s true t).last_blink_end = s.last_blink_end := by
  unfold blink_detection
  split_ifs <;> simp_all

/-- Everything `space_detection` can do to the buffer: nothing, a guarded
single letter space, or a guarded word space. -/
lemma space_detection_suffix (s : EncoderState) (t : ℚ) :
    ∃ suf : String,
      (space_detection s t).morse_code = s.morse_code ++ suf ∧
      (suf = "" ∨ (suf = " " ∧ pyEndsWith s.morse_code " " = false) ∨
        (suf = "   " ∧ pyEndsWith s.morse_code "   " = false)) := by
  unfold space_detection
  split_ifs with h1 h2 h3 h4
  · exact ⟨"   ", rfl, Or.inr (Or.inr ⟨rfl, h2⟩)⟩
  · exact ⟨"", (str_append_empty _).symm, Or.inl rfl⟩
  · exact ⟨" ", rfl, Or.inr (Or.inl ⟨rfl, h4⟩)⟩
  · exact ⟨"", (str_append_empty _).symm, Or.inl rfl⟩
  · exact ⟨"", (str_append_empty _).symm, Or.inl rfl⟩

/-- Everything one `process_frame` call can append to the buffer: nothing, a
dot, a dash, a guarded letter space, or a guarded word space. -/
lemma process_frame_suffix (s : EncoderState) (face closed : Bool) (t : ℚ) :
    ∃ suf : String,
      (process_frame s face closed t).morse_code = s.morse_code ++ suf ∧
      (suf = "" ∨ suf = "." ∨ suf = "-" ∨
        (suf = " " ∧ pyEndsWith s.morse_code " " = false) ∨
        (suf = "   " ∧ pyEndsWith s.morse_code "   " = false)) := by
  cases face with
  | false =>
    exact ⟨"", by simp [process_frame, str_append_empty], Or.inl rfl⟩
  | true =>
    have hpf : process_frame s true closed t
        = space_detection (blink_detection s closed t) t := by
      simp [process_frame]
    cases closed with
    | true =>
      obtain ⟨hm, -⟩ := blink_detection_closed_fields s t
      obtain ⟨suf, hs, hcase⟩ := space_detection_suffix (blink_detection s true t) t
      rw [hm] at hs hcase
      exact ⟨suf, by rw [hpf, hs], by
        rcases hcase with h | h | h
        · exact Or.inl h
        · exact Or.inr (Or.inr (Or.inr (Or.inl h)))
        · exact Or.inr (Or.inr (Or.inr (Or.inr h)))⟩
    | false =>
      by_cases hp : s.blink_start_time > 0
      · rw [hpf, blink_detection_open_pending s t hp]
        rw [show space_detection
              { blink_start_time := 0, last_blink_end := t,
                morse_code :=
                  if t - s.blink_start_time < 0.4 then s.morse_code ++ "."
                  else if t - s.blink_start_time < 0.8 then s.morse_code ++ "-"
                  else s.morse_code } t
            = { blink_start_time := 0, last_blink_end := t,
                morse_code :=
                  if t - s.blink_start_time < 0.4 then s.morse_code ++ "."
                  else if t - s.blink_start_time < 0.8 then s.morse_code ++ "-"
                  else s.morse_code } from space_detection_last _]
        by_cases hd1 : t - s.blink_start_time < 0.4
        · exact ⟨".", by simp [hd1], Or.inr (Or.inl rfl)⟩
        · by_cases hd2 : t - s.blink_start_time < 0.8
          · exact ⟨"-", by simp [hd1, hd2], Or.inr (Or.inr (Or.inl rfl))⟩
          · exact ⟨"", by simp [hd1, hd2, str_append_empty], Or.inl rfl⟩
      · rw [hpf, blink_detection_open_idle s t hp]
        obtain ⟨suf, hs, hcase⟩ := space_detection_suffix s t
        exact ⟨suf, hs, by
          rcases hcase with h | h | h
          · exact Or.inl h
          · exact Or.inr (Or.inr (Or.inr (Or.inl h)))
          · exact Or.inr (Or.inr (Or.inr (Or.inr h)))⟩

/-! ## Encoder claims -/

/-- C1: for a closure ending at `t` with duration `d = t - blink_start_time`
(an open, face-detected sample arriving while a closure is pending), the
encoder appends exactly one `"."` to the symbol buffer if `d < 0.4`, exactly
one `"-"` if `0.4 ≤ d < 0.8`, and no symbol at all if `d ≥ 0.8` (the overlong
closure is silently discarded). -/
theorem C1_closure_classification (s : EncoderState) (t : ℚ)
    (hpend : s.blink_start_time > 0) :
    (t - s.blink_start_time < 0.4 →
      (process_frame s true false t).morse_code = s.morse_code ++ ".") ∧
    (0.4 ≤ t - s.blink_start_time → t - s.blink_start_time < 0.8 →
      (process_frame s true false t).morse_code = s.morse_code ++ "-") ∧
    (0.8 ≤ t - s.blink_start_time →
      (process_frame s true false t).morse_code = s.morse_code) := by
  have key : process_frame s true false t =
      { blink_start_time := 0, last_blink_end := t,
        morse_code :=
          if t - s.blink_start_time < 0.4 then s.morse_code ++ "."
          else if t - s.blink_start_time < 0.8 then s.morse_code ++ "-"
          else s.morse_code } := by
    have h1 : process_frame s true false t
        = space_detection (blink_detection s false t) t := by
      simp [process_frame]
    rw [h1, blink_detection_open_pending s t hpend]
    exact space_detection_last _
  refine ⟨fun h => ?_, fun h1 h2 => ?_, fun h => ?_⟩
  · rw [key]; simp [h]
  · rw [key]; simp [not_lt.mpr h1, h2]
  · rw [key]
    have h4 : ¬ t - s.blink_start_time < 0.4 := not_lt.mpr (by linarith)
    have h8 : ¬ t - s.blink_start_time < 0.8 := not_lt.mpr h
    simp [h4, h8]

/-- C1 witness: a concrete 0.2-second closure is classified as a dot. -/
theorem C1_witness :
    ((1 : ℚ) > 0 ∧ (1.2 : ℚ) - 1 < 0.4) ∧
    (process_frame ⟨1, 1, ""⟩ true false 1.2).morse_code = "" ++ "." :=
  ⟨⟨by norm_num, by norm_num⟩,
   (C1_closure_classification ⟨1, 1, ""⟩ 1.2 (by norm_num)).1 (by norm_num)⟩

/-- C2: open-gap classification while no closure is pending: a gap `> 1.0`
appends a word space (at most once, and the gap timer resets on append); else
a gap in `(0.8, 1.0]` appends a single letter space (at most once, with
timer reset); else the state is unchanged.  The word-space test is evaluated
first, so a gap qualifying for both is classified as a word space. -/
theorem C2_gap_classification (s : EncoderState) (t : ℚ)
    (h0 : s.blink_start_time = 0) :
    (t - s.last_blink_end > 1.0 → pyEndsWith s.morse_code "   " = false →
      process_frame s true false t =
        { s with morse_code := s.morse_code ++ "   ", last_blink_end := t }) ∧
    (t - s.last_blink_end > 1.0 → pyEndsWith s.morse_code "   " = true →
      process_frame s true false t = s) ∧
    (t - s.last_blink_end ≤ 1.0 → t - s.last_blink_end > 0.8 →
      pyEndsWith s.morse_code " " = false →
      process_frame s true false t =
        { s with morse_code := s.morse_code ++ " ", last_blink_end := t }) ∧
    (t - s.last_blink_end ≤ 1.0 → t - s.last_blink_end > 0.8 →
      pyEndsWith s.morse_code " " = true →
      process_frame s true false t = s) ∧
    (t - s.last_blink_end ≤ 0.8 → process_frame s true false t = s) := by
  have hb : process_frame s true false t = space_detection s t := by
    have h1 : process_frame s true false t
        = space_detection (blink_detection s false t) t := by
      simp [process_frame]
    rw [h1, blink_detection_open_idle s t (by rw [h0]; exact lt_irrefl 0)]
  refine ⟨fun hg he => ?_, fun hg he => ?_, fun hg1 hg2 he => ?_,
    fun hg1 hg2 he => ?_, fun hg => ?_⟩ <;> rw [hb] <;> unfold space_detection
  · rw [if_pos hg, if_pos he]
  · rw [if_pos hg]; simp [he]
  · rw [if_neg (not_lt.mpr hg1), if_pos hg2, if_pos he]
  · rw [if_neg (not_lt.mpr hg1), if_pos hg2]; simp [he]
  · rw [if_neg (not_lt.mpr (le_trans hg (by norm_num))), if_neg (not_lt.mpr hg)]

/-- C2 witness: a concrete 1.1-second open gap appends one word space and
resets the gap timer. -/
theorem C2_witness :
    process_frame ⟨0, 1, "."⟩ true false 2.1 =
      { blink_start_time := 0, last_blink_end := 2.1,
        morse_code := "." ++ "   " } :=
  (C2_gap_classification ⟨0, 1, "."⟩ 2.1 rfl).1 (by norm_num) (by decide)

/-- C3 counterexample: from a fresh session, after a dot and a new closure in
progress, a *closed* sample at `t = 2.5` appends a word space — space
classification does happen while the encoder is in the CLOSED phase,
contradicting the claim. -/
theorem C3_counterexample :
    (runEncoder (initEncoder 1)
        [(true, true, 1.2), (true, false, 1.4), (true, true, 1.8)]).morse_code
      = "." ∧
    (process_frame (runEncoder (initEncoder 1)
        [(true, true, 1.2), (true, false, 1.4), (true, true, 1.8)])
        true true 2.5).morse_code = ".   " := by
  decide

/-- C3 amended: space classification runs on every face-detected frame
regardless of phase; while a closure is pending, a closed sample whose gap
since `last_blink_end` exceeds `1.0` (buffer not already ending in a word
space) appends a word space. -/
theorem C3_amended_space_while_closed (s : EncoderState) (t : ℚ)
    (hpend : s.blink_start_time > 0)
    (hgap : t - s.last_blink_end > 1.0)
    (hends : pyEndsWith s.morse_code "   " = false) :
    (process_frame s true true t).morse_code = s.morse_code ++ "   " := by
  have h1 : process_frame s true true t
      = space_detection (blink_detection s true t) t := by
    simp [process_frame]
  have h2 : blink_detection s true t = s := by
    unfold blink_detection
    simp [ne_of_gt hpend]
  rw [h1, h2]
  unfold space_detection
  rw [if_pos hgap, if_pos hends]

/-- C3 witness for the amended statement, at the counterexample's state. -/
theorem C3_amended_witness :
    ((1.8 : ℚ) > 0 ∧ (2.5 : ℚ) - 1.4 > 1.0 ∧ pyEndsWith "." "   " = false) ∧
    (process_frame ⟨1.8, 1.4, "."⟩ true true 2.5).morse_code = "." ++ "   " :=
  ⟨⟨by norm_num, by norm_num, by decide⟩,
   C3_amended_space_while_closed ⟨1.8, 1.4, "."⟩ 2.5 (by norm_num) (by norm_num)
     (by decide)⟩

/-- C4 counterexample: a dot, then a letter space at `t = 2.3` (gap 0.9),
then a word space at `t = 3.4` (gap 1.1 since the letter-space reset): the
buffer ends as a letter space immediately followed by a word space (a
four-blank run), which the claimed invariant forbids. -/
theorem C4_counterexample :
    (runEncoder (initEncoder 1)
        [(true, true, 1.2), (true, false, 1.4), (true, false, 2.3),
         (true, false, 3.4)]).morse_code = "." ++ " " ++ "   " := by
  decide

/-- C4 amended: the step never appends a letter space when the buffer already
ends with a space (so two consecutive letter-space appends are impossible),
but a letter space may later be followed directly by a word-space append. -/
theorem C4_amended_no_double_letter_space (s : EncoderState)
    (face closed : Bool) (t : ℚ)
    (happend : (process_frame s face closed t).morse_code = s.morse_code ++ " ") :
    pyEndsWith s.morse_code " " = false := by
  obtain ⟨suf, hm, hcase⟩ := process_frame_suffix s face closed t
  have hsuf : suf = " " := str_append_left_cancel (hm.symm.trans happend)
  subst hsuf
  rcases hcase with h | h | h | ⟨-, h⟩ | ⟨h, -⟩
  · exact absurd h (by decide)
  · exact absurd h (by decide)
  · exact absurd h (by decide)
  · exact h
  · exact absurd h (by decide)

/-- C4 witness for the amended statement: the letter-space append at a 0.9
gap indeed happens on a buffer not ending in a space. -/
theorem C4_amended_witness :
    (process_frame ⟨0, 1, "."⟩ true false 1.9).morse_code = "." ++ " " ∧
    pyEndsWith "." " " = false :=
  ⟨by decide, C4_amended_no_double_letter_space ⟨0, 1, "."⟩ true false 1.9 (by decide)⟩

/-- C9: the buffer is append-only and over the alphabet `{'.', '-', ' '}`:
each `process_frame` call extends the previous buffer by a (possibly empty)
suffix whose characters are dots, dashes, or blanks. -/
theorem C9_append_only_alphabet (s : EncoderState) (face closed : Bool) (t : ℚ) :
    ∃ suf : String,
      (process_frame s face closed t).morse_code = s.morse_code ++ suf ∧
      ∀ c ∈ suf.data, c = '.' ∨ c = '-' ∨ c = ' ' := by
  obtain ⟨suf, hm, hcase⟩ := process_frame_suffix s face closed t
  refine ⟨suf, hm, ?_⟩
  rcases hcase with h | h | h | ⟨h, -⟩ | ⟨h, -⟩ <;> subst h <;> decide

/-- C10 counterexample: frames with no face landmarks leave the state
untouched — after 2.9 seconds of landmark-less frames from session start the
buffer is still empty, where the claim asserts a word space would have been
appended. -/
theorem C10_counterexample :
    process_frame (initEncoder 1) false false 2.5 = initEncoder 1 ∧
    (runEncoder (initEncoder 1)
        [(false, false, 1.5), (false, false, 2.7), (false, false, 3.9)]).morse_code
      = "" := by
  decide

/-- C10 amended: space classification is gated on landmark detection — a
frame with no landmarks changes nothing — while with landmarks present a
word space is appended to the initially empty buffer once more than `1.0`
seconds have elapsed since session start, even with no closure at all. -/
theorem C10_amended_landmark_gating :
    (∀ (s : EncoderState) (closed : Bool) (t : ℚ),
      process_frame s false closed t = s) ∧
    (∀ t0 t : ℚ, t - t0 > 1.0 →
      (process_frame (initEncoder t0) true false t).morse_code = "   ") := by
  constructor
  · intro s closed t
    simp [process_frame]
  · intro t0 t hgap
    have h1 : process_frame (initEncoder t0) true false t
        = space_detection (initEncoder t0) t := by
      have h2 : blink_detection (initEncoder t0) false t = initEncoder t0 :=
        blink_detection_open_idle _ _ (by norm_num [initEncoder])
      simp [process_frame, h2]
    rw [h1]
    unfold space_detection
    have hg : t - (initEncoder t0).last_blink_end > 1.0 := hgap
    have he : pyEndsWith (initEncoder t0).morse_code "   " = false := rfl
    rw [if_pos hg, if_pos he]
    rfl

/-- C10 witness for the amended statement. -/
theorem C10_amended_witness :
    process_frame (initEncoder 0) false true 3 = initEncoder 0 ∧
    (process_frame (initEncoder 1) true false 2.5).morse_code = "   " :=
  ⟨C10_amended_landmark_gating.1 (initEncoder 0) true 3,
   C10_amended_landmark_gating.2 1 2.5 (by norm_num)⟩

/-! ## Decoder structure lemmas -/

/-- The inner letter fold appends the concatenated letter decodings. -/
lemma foldl_letters (toks : List (List Char)) (dec : List Char) :
    toks.foldl (fun d letter => d ++ mapGetL letter) dec
      = dec ++ (toks.map mapGetL).flatten := by
  induction toks generalizing dec with
  | nil => simp
  | cons t ts ih => simp [ih, List.append_assoc]

/-- The outer word fold appends, for each word, its decoding then a blank. -/
lemma foldl_words (words : List (List Char)) (dec : List Char) :
    words.foldl
      (fun dec word =>
        ((splitWSL word).foldl (fun d letter => d ++ mapGetL letter) dec) ++ [' '])
      dec
      = dec ++ (words.map (fun w => decodeWordL w ++ [' '])).flatten := by
  induction words generalizing dec with
  | nil => simp
  | cons w ws ih =>
    simp only [List.foldl_cons]
    rw [ih]
    simp [foldl_letters, decodeWordL, List.append_assoc]

/-- `decodeL` in closed form: strip of the flattened per-word decodings, each
followed by one blank. -/
lemma decodeL_flatten (m : List Char) :
    decodeL m
      = pyStripL
          (((split3 (pyStripL m)).map (fun w => decodeWordL w ++ [' '])).flatten) := by
  simp only [decodeL]
  rw [foldl_words]
  simp

/-- A non-whitespace member survives `dropWhile isPySpace`. -/
lemma mem_dropWhile_of_not_space {a : Char} {l : List Char}
    (hm : a ∈ l) (ha : isPySpace a = false) : a ∈ l.dropWhile isPySpace := by
  induction l with
  | nil => cases hm
  | cons c cs ih =>
    rw [List.dropWhile_cons]
    by_cases hc : isPySpace c = true
    · simp only [hc, if_true]
      rcases List.mem_cons.mp hm with h | h
      · subst h
        rw [ha] at hc
        cases hc
      · exact ih h
    · simp only [hc, if_false]
      exact hm

/-- A non-whitespace member survives Python `strip`. -/
lemma mem_pyStrip_of_not_space {a : Char} {l : List Char}
    (hm : a ∈ l) (ha : isPySpace a = false) : a ∈ pyStripL l := by
  unfold pyStripL
  rw [List.mem_reverse]
  refine mem_dropWhile_of_not_space ?_ ha
  rw [List.mem_reverse]
  exact mem_dropWhile_of_not_space hm ha

/-- Turning the trailing-blank form into the single-blank-join form. -/
lemma flatten_trail_eq_joinWith (L : List (List Char)) :
    (L.map (fun w => w ++ [' '])).flatten
      = joinWith [' '] L ++ (if L = [] then [] else [' ']) := by
  induction L with
  | nil => simp [joinWith]
  | cons w ws ih =>
    simp only [List.map_cons, List.flatten_cons, ih]
    cases ws with
    | nil => simp [joinWith]
    | cons w2 ws2 => simp [joinWith, List.append_assoc]

/-- Stripping absorbs one trailing blank. -/
lemma pyStrip_append_blank (l : List Char) :
    pyStripL (l ++ [' ']) = pyStripL l := by
  unfold pyStripL
  rw [List.dropWhile_append]
  by_cases h : (l.dropWhile isPySpace).isEmpty
  · rw [if_pos h]
    have h2 : l.dropWhile isPySpace = [] := List.isEmpty_iff.mp h
    rw [h2]
    rfl
  · rw [if_neg h]
    simp [List.dropWhile_cons, isPySpace]

/-- The decoder output in fully joined form: the decoded words joined by a
single blank, then stripped. -/
lemma decodeL_joinWith (m : List Char) :
    decodeL m
      = pyStripL (joinWith [' '] ((split3 (pyStripL m)).map decodeWordL)) := by
  rw [decodeL_flatten]
  have hmap : (split3 (pyStripL m)).map (fun w => decodeWordL w ++ [' '])
      = ((split3 (pyStripL m)).map decodeWordL).map (fun w => w ++ [' ']) := by
    rw [List.map_map]
    rfl
  rw [hmap, flatten_trail_eq_joinWith]
  by_cases h : (split3 (pyStripL m)).map decodeWordL = []
  · rw [h]
    simp [joinWith]
  · rw [if_neg h, pyStrip_append_blank]

/-! ## Decoder claims C6, C7, C8 -/

/-- C6: `decode_morse_code` is a total function — on every input string it
returns a result (it is a plain function of the embedding, built only from
splitting, table lookup with a default, and concatenation) — and the empty
buffer decodes to the empty string. -/
theorem C6_total_empty :
    decode_morse_code "" = "" ∧
    ∀ morse : String, ∃ out : String, decode_morse_code morse = out :=
  ⟨by decide, fun morse => ⟨decode_morse_code morse, rfl⟩⟩

/-- C7: a letter token of the buffer that is not a key of the code table is
decoded to the placeholder `" ◊ "` — never an error — and the placeholder
glyph `'◊'` appears in the decoder's output, so the token is not dropped
silently. -/
theorem C7_unknown_placeholder (m : String) (w letter : List Char)
    (hw : w ∈ split3 (pyStripL m.data)) (hl : letter ∈ splitWSL w)
    (hmiss : mapL.lookup letter = none) :
    mapGetL letter = " ◊ ".data ∧ '◊' ∈ (decode_morse_code m).data := by
  have hget : mapGetL letter = " ◊ ".data := by simp [mapGetL, hmiss]
  refine ⟨hget, ?_⟩
  have hdiam : '◊' ∈ mapGetL letter := by
    rw [hget]
    decide
  have hword : '◊' ∈ decodeWordL w := by
    unfold decodeWordL
    exact List.mem_flatten.mpr ⟨mapGetL letter, List.mem_map_of_mem _ hl, hdiam⟩
  have hflat : '◊' ∈
      ((split3 (pyStripL m.data)).map (fun w => decodeWordL w ++ [' '])).flatten :=
    List.mem_flatten.mpr ⟨decodeWordL w ++ [' '],
      List.mem_map_of_mem _ hw, List.mem_append_left _ hword⟩
  have hmem : '◊' ∈ decodeL m.data := by
    rw [decodeL_flatten]
    exact mem_pyStrip_of_not_space hflat (by decide)
  simpa [decode_morse_code] using hmem

/-- C7 witness: the malformed token `".-.-.-.-"` decodes to the placeholder
and the glyph appears in the output. -/
theorem C7_witness :
    (".-.-.-.-".data ∈ split3 (pyStripL (".-.-.-.-" : String).data) ∧
     ".-.-.-.-".data ∈ splitWSL ".-.-.-.-".data ∧
     mapL.lookup ".-.-.-.-".data = none) ∧
    (mapGetL ".-.-.-.-".data = " ◊ ".data ∧
     '◊' ∈ (decode_morse_code ".-.-.-.-").data) :=
  ⟨⟨by decide, by decide, by decide⟩,
   C7_unknown_placeholder ".-.-.-.-" ".-.-.-.-".data ".-.-.-.-".data
     (by decide) (by decide) (by decide)⟩

/-- C8: for every buffer, the decoder's output is exactly: the letters of
each word decoded and concatenated with no separator (`decodeWordL`), the
words joined with exactly one blank, and the final result stripped of
leading/trailing whitespace. -/
theorem C8_join_shape (m : String) :
    decode_morse_code m
      = String.mk (pyStripL (joinWith [' ']
          ((split3 (pyStripL m.data)).map decodeWordL))) := by
  unfold decode_morse_code
  rw [decodeL_joinWith]

/-! ## Round-trip support: blanks and `noDouble` -/

/-- A non-whitespace character is not the blank. -/
lemma blank_ne_of_not_space {c : Char} (h : isPySpace c = false) : c ≠ ' ' := by
  intro hc
  subst hc
  simp [isPySpace] at h

/-- A whitespace-free list has no two adjacent blanks. -/
lemma noDouble_of_space_free : ∀ (x : List Char),
    (∀ c ∈ x, isPySpace c = false) → noDouble x := by
  intro x
  induction x with
  | nil => intro _; trivial
  | cons c t ih =>
    intro h
    cases t with
    | nil => trivial
    | cons d t2 =>
      refine ⟨?_, ih (fun e he => h e (by simp [he]))⟩
      rintro ⟨h1, -⟩
      exact blank_ne_of_not_space (h c (by simp)) h1

/-- Gluing a whitespace-free chunk, one blank, and a `noDouble` tail whose
head is not whitespace keeps the `noDouble` invariant. -/
lemma noDouble_glue : ∀ (x r : List Char),
    (∀ c ∈ x, isPySpace c = false) → noDouble r →
    (∀ c, r.head? = some c → isPySpace c = false) →
    noDouble (x ++ ' ' :: r) := by
  intro x
  induction x with
  | nil =>
    intro r _ hr hh
    cases r with
    | nil => trivial
    | cons d r2 =>
      refine ⟨?_, hr⟩
      rintro ⟨-, hd⟩
      exact blank_ne_of_not_space (hh d rfl) hd
  | cons c x ih =>
    intro r hx hr hh
    have hc : c ≠ ' ' := blank_ne_of_not_space (hx c (by simp))
    cases x with
    | nil =>
      refine ⟨?_, ih r (by simp) hr hh⟩
      rintro ⟨h1, -⟩
      exact hc h1
    | cons d x2 =>
      refine ⟨?_, ih r (fun e he => hx e (by simp [he])) hr hh⟩
      rintro ⟨h1, -⟩
      exact hc h1

/-! ## Round-trip support: `joinWith` shape facts -/

/-- The head of a non-trivial join is the head of its first chunk. -/
lemma joinWith_head (sep x : List Char) (xs : List (List Char)) (hx : x ≠ []) :
    (joinWith sep (x :: xs)).head? = x.head? := by
  cases xs with
  | nil => rfl
  | cons y ys =>
    rcases x with _ | ⟨c, t⟩
    · exact absurd rfl hx
    · rfl

/-- A join starting from a nonempty chunk is nonempty. -/
lemma joinWith_ne_nil (sep x : List Char) (xs : List (List Char)) (hx : x ≠ []) :
    joinWith sep (x :: xs) ≠ [] := by
  cases xs with
  | nil => simpa [joinWith] using hx
  | cons y ys =>
    rcases x with _ | ⟨c, t⟩
    · exact absurd rfl hx
    · simp [joinWith]

/-- The last element of a join of nonempty chunks is the last element of the
last chunk. -/
lemma joinWith_getLast (sep : List Char) : ∀ (L : List (List Char)) (x : List Char),
    (∀ y ∈ L, y ≠ []) → L.getLast? = some x →
    (joinWith sep L).getLast? = x.getLast? := by
  intro L
  induction L with
  | nil =>
    intro x _ hx
    cases hx
  | cons y ys ih =>
    intro x hne hx
    cases ys with
    | nil =>
      have hyx : y = x := by simpa using hx
      subst hyx
      rfl
    | cons y2 ys2 =>
      rw [List.getLast?_cons_cons] at hx
      have hrec : (joinWith sep (y2 :: ys2)).getLast? = x.getLast? :=
        ih x (fun z hz => hne z (by simp [hz])) hx
      have hnn : joinWith sep (y2 :: ys2) ≠ [] :=
        joinWith_ne_nil sep y2 ys2 (hne y2 (by simp))
      show ((y ++ sep) ++ joinWith sep (y2 :: ys2)).getLast? = x.getLast?
      rw [List.getLast?_append]
      rcases hlast : (joinWith sep (y2 :: ys2)).getLast? with _ | c
      · exact absurd (List.getLast?_eq_none_iff.mp hlast) hnn
      · rw [hlast] at hrec
        rw [← hrec]
        simp

/-- A join of nonempty whitespace-free chunks on a single blank has no two
adjacent blanks. -/
lemma joinWith_blank_noDouble : ∀ (L : List (List Char)),
    (∀ x ∈ L, x ≠ [] ∧ ∀ c ∈ x, isPySpace c = false) →
    noDouble (joinWith [' '] L) := by
  intro L
  induction L with
  | nil => intro _; trivial
  | cons x xs ih =>
    intro h
    obtain ⟨hx, hsp⟩ := h x (by simp)
    cases xs with
    | nil => exact noDouble_of_space_free x hsp
    | cons y ys =>
      show noDouble ((x ++ [' ']) ++ joinWith [' '] (y :: ys))
      rw [List.append_assoc, List.singleton_append]
      refine noDouble_glue x _ hsp (ih (fun z hz => h z (by simp [hz]))) ?_
      intro c hc
      rw [joinWith_head [' '] y ys (h y (by simp)).1] at hc
      exact (h y (by simp)).2 c (List.mem_of_mem_head? hc)

/-- Head and last of a join of nonempty chunks with non-whitespace ends are
not whitespace. -/
lemma joinWith_ends (sep : List Char) (L : List (List Char))
    (hne : ∀ x ∈ L, x ≠ [])
    (hh : ∀ x ∈ L, ∀ c, x.head? = some c → isPySpace c = false)
    (hl : ∀ x ∈ L, ∀ c, x.getLast? = some c → isPySpace c = false) :
    (∀ c, (joinWith sep L).head? = some c → isPySpace c = false) ∧
    (∀ c, (joinWith sep L).getLast? = some c → isPySpace c = false) := by
  cases L with
  | nil => exact ⟨fun c hc => Option.noConfusion hc, fun c hc => Option.noConfusion hc⟩
  | cons x xs =>
    constructor
    · intro c hc
      rw [joinWith_head sep x xs (hne x (by simp))] at hc
      exact hh x (by simp) c hc
    · intro c hc
      rcases hL : (x :: xs).getLast? with _ | y
      · exact absurd (List.getLast?_eq_none_iff.mp hL) (by simp)
      · rw [joinWith_getLast sep (x :: xs) y hne hL] at hc
        exact hl y (List.mem_of_getLast?_eq_some hL) c hc

/-- Stripping a list whose ends are not whitespace does nothing. -/
lemma pyStrip_of_clean (l : List Char)
    (hh : ∀ c, l.head? = some c → isPySpace c = false)
    (hl : ∀ c, l.getLast? = some c → isPySpace c = false) :
    pyStripL l = l := by
  unfold pyStripL
  have h1 : l.dropWhile isPySpace = l := by
    cases l with
    | nil => rfl
    | cons c t => rw [List.dropWhile_cons_of_neg (by simp [hh c rfl])]
  have h2 : l.reverse.dropWhile isPySpace = l.reverse := by
    cases hrev : l.reverse with
    | nil => rfl
    | cons c t =>
      have hc : l.getLast? = some c := by
        rw [← List.head?_reverse, hrev]
        rfl
      rw [List.dropWhile_cons_of_neg (by simp [hl c hc])]
  rw [h1, h2, List.reverse_reverse]

/-! ## Round-trip support: `split3` on separator-free and separated input -/

/-- Unfolding `split3` on a list of length at least three whose first three
characters are not all blanks. -/
lemma split3_cons3 {c1 c2 c3 : Char} (rest : List Char)
    (h : ¬ (c1 = ' ' ∧ c2 = ' ' ∧ c3 = ' ')) :
    split3 (c1 :: c2 :: c3 :: rest) = consHead c1 (split3 (c2 :: c3 :: rest)) := by
  simp only [split3]
  rw [if_neg h]

/-- Unfolding `split3` on a leading three-blank separator. -/
lemma split3_sep_base (b : List Char) :
    split3 (' ' :: ' ' :: ' ' :: b) = [] :: split3 b := by
  simp [split3]

/-- `split3` does not split a list without two adjacent blanks. -/
lemma split3_noDouble_aux : ∀ (n : ℕ) (l : List Char), l.length ≤ n →
    noDouble l → split3 l = [l] := by
  intro n
  induction n with
  | zero =>
    intro l hl _
    have h0 : l = [] := List.length_eq_zero.mp (Nat.le_zero.mp hl)
    subst h0
    rfl
  | succ n ih =>
    intro l hl hnd
    rcases l with _ | ⟨c1, _ | ⟨c2, _ | ⟨c3, rest⟩⟩⟩
    · rfl
    · rfl
    · rfl
    · have h12 : ¬ (c1 = ' ' ∧ c2 = ' ') := hnd.1
      rw [split3_cons3 rest (by tauto)]
      have hrec : split3 (c2 :: c3 :: rest) = [c2 :: c3 :: rest] := by
        refine ih _ ?_ hnd.2
        simp only [List.length_cons] at hl ⊢
        omega
      rw [hrec]
      rfl

/-- `split3` leaves a `noDouble` list whole. -/
lemma split3_noDouble {l : List Char} (h : noDouble l) : split3 l = [l] :=
  split3_noDouble_aux l.length l le_rfl h

/-- `split3` splits exactly at a three-blank separator following a `noDouble`
chunk that does not end in a blank. -/
lemma split3_sep : ∀ (n : ℕ) (a b : List Char), a.length ≤ n → noDouble a →
    (∀ c, a.getLast? = some c → c ≠ ' ') →
    split3 (a ++ ' ' :: ' ' :: ' ' :: b) = a :: split3 b := by
  intro n
  induction n with
  | zero =>
    intro a b hl _ _
    have h0 : a = [] := List.length_eq_zero.mp (Nat.le_zero.mp hl)
    subst h0
    exact split3_sep_base b
  | succ n ih =>
    intro a b hl hnd hlast
    rcases a with _ | ⟨c1, _ | ⟨c2, a2⟩⟩
    · exact split3_sep_base b
    · have hc1 : c1 ≠ ' ' := hlast c1 rfl
      show split3 (c1 :: ' ' :: ' ' :: (' ' :: b)) = [c1] :: split3 b
      rw [split3_cons3 (' ' :: b) (by tauto), split3_sep_base b]
      rfl
    · have h12 : ¬ (c1 = ' ' ∧ c2 = ' ') := hnd.1
      rcases a2 with _ | ⟨c3, a3⟩
      · show split3 (c1 :: c2 :: ' ' :: (' ' :: ' ' :: b)) = [c1, c2] :: split3 b
        rw [split3_cons3 (' ' :: ' ' :: b) (by tauto)]
        have h2 : split3 ([c2] ++ ' ' :: ' ' :: ' ' :: b) = [c2] :: split3 b := by
          refine ih [c2] b ?_ trivial ?_
          · simp only [List.length_cons] at hl ⊢
            omega
          · intro c hc
            have hc2 : c2 = c := by simpa using hc
            subst hc2
            exact hlast c2 (by simp)
        simp only [List.cons_append, List.nil_append] at h2
        rw [h2]
        rfl
      · show split3 (c1 :: ((c2 :: c3 :: a3) ++ ' ' :: ' ' :: ' ' :: b))
          = (c1 :: c2 :: c3 :: a3) :: split3 b
        rw [show ((c2 :: c3 :: a3) ++ ' ' :: ' ' :: ' ' :: b)
            = c2 :: c3 :: (a3 ++ ' ' :: ' ' :: ' ' :: b) from rfl]
        rw [split3_cons3 _ (by tauto)]
        have h2 : split3 ((c2 :: c3 :: a3) ++ ' ' :: ' ' :: ' ' :: b)
            = (c2 :: c3 :: a3) :: split3 b := by
          refine ih _ b ?_ hnd.2 ?_
          · simp only [List.length_cons] at hl ⊢
            omega
          · intro c hc
            refine hlast c ?_
            rw [List.getLast?_cons_cons]
            exact hc
        simp only [List.cons_append] at h2
        rw [h2]
        rfl

/-! ## Round-trip support: `splitWSL` inverts the single-blank join -/

/-- The whitespace splitter on a whitespace-free tail flushes it as the final
chunk. -/
lemma splitWSAux_final : ∀ (w acc : List Char),
    (∀ c ∈ w, isPySpace c = false) → (acc ≠ [] ∨ w ≠ []) →
    splitWSAux acc w = [acc.reverse ++ w] := by
  intro w
  induction w with
  | nil =>
    intro acc _ hne
    have hacc : acc ≠ [] := by
      rcases hne with h | h
      · exact h
      · exact absurd rfl h
    simp [splitWSAux, List.isEmpty_iff, hacc]
  | cons c w ih =>
    intro acc hsp hne
    have hc : isPySpace c = false := hsp c (by simp)
    simp only [splitWSAux, hc, Bool.false_eq_true, if_false]
    rw [ih (c :: acc) (fun d hd => hsp d (by simp [hd])) (Or.inl (by simp))]
    simp

/-- The whitespace splitter emits the accumulated whitespace-free chunk at a
blank and restarts. -/
lemma splitWSAux_sep : ∀ (w acc rest : List Char),
    (∀ c ∈ w, isPySpace c = false) → (acc ≠ [] ∨ w ≠ []) →
    splitWSAux acc (w ++ ' ' :: rest) = (acc.reverse ++ w) :: splitWSAux [] rest := by
  intro w
  induction w with
  | nil =>
    intro acc rest _ hne
    have hacc : acc ≠ [] := by
      rcases hne with h | h
      · exact h
      · exact absurd rfl h
    simp [splitWSAux, isPySpace, List.isEmpty_iff, hacc]
  | cons c w ih =>
    intro acc rest hsp hne
    have hc : isPySpace c = false := hsp c (by simp)
    simp only [List.cons_append, splitWSAux, hc, Bool.false_eq_true, if_false]
    show splitWSAux (c :: acc) (w ++ ' ' :: rest)
        = (acc.reverse ++ c :: w) :: splitWSAux [] rest
    rw [ih (c :: acc) rest (fun d hd => hsp d (by simp [hd])) (Or.inl (by simp))]
    simp

/-- Python `str.split()` inverts the single-blank join of nonempty
whitespace-free chunks. -/
lemma splitWS_joinWith : ∀ (L : List (List Char)),
    (∀ w ∈ L, w ≠ [] ∧ ∀ c ∈ w, isPySpace c = false) →
    splitWSL (joinWith [' '] L) = L := by
  intro L
  induction L with
  | nil => intro _; rfl
  | cons w ws ih =>
    intro h
    obtain ⟨hw, hsp⟩ := h w (by simp)
    cases ws with
    | nil =>
      show splitWSAux [] w = [w]
      rw [splitWSAux_final w [] hsp (Or.inr hw)]
      simp
    | cons w2 ws2 =>
      show splitWSAux [] ((w ++ [' ']) ++ joinWith [' '] (w2 :: ws2)) = w :: w2 :: ws2
      rw [List.append_assoc, List.singleton_append,
        splitWSAux_sep w [] (joinWith [' '] (w2 :: ws2)) hsp (Or.inr hw)]
      rw [show splitWSAux [] (joinWith [' '] (w2 :: ws2))
          = splitWSL (joinWith [' '] (w2 :: ws2)) from rfl]
      rw [ih (fun x hx => h x (by simp [hx]))]
      simp

/-! ## Round-trip support: the code table -/

/-- Every covered character occurs among the table's value characters. -/
lemma covered_mem_valueChars {c : Char} (h : covered c) : c ∈ valueChars := by
  unfold covered at h
  unfold valueChars
  exact List.mem_flatten.mpr ⟨[c], h, by simp⟩

/-- Checked over the 39 concrete table entries: decoding the canonical code
of a value character returns exactly that character, canonical codes are
nonempty and whitespace-free, and value characters are not whitespace. -/
lemma table_char_props :
    ∀ c ∈ valueChars,
      mapGetL (charToMorse c) = [c] ∧ charToMorse c ≠ [] ∧
      (∀ ch ∈ charToMorse c, isPySpace ch = false) ∧ isPySpace c = false := by
  decide

/-- The per-character facts, for any covered character. -/
lemma covered_char_props {c : Char} (h : covered c) :
    mapGetL (charToMorse c) = [c] ∧ charToMorse c ≠ [] ∧
    (∀ ch ∈ charToMorse c, isPySpace ch = false) ∧ isPySpace c = false :=
  table_char_props c (covered_mem_valueChars h)

/-- Flattening singletons gives back the word. -/
lemma flatten_singletons : ∀ (w : List Char), (w.map (fun c => [c])).flatten = w := by
  intro w
  induction w with
  | nil => rfl
  | cons c t ih => simp [ih]

/-- Decoding the reference encoding of one nonempty covered word gives the
word back. -/
lemma decodeWordL_encWordL (w : List Char) (_hw : w ≠ [])
    (hcov : ∀ c ∈ w, covered c) : decodeWordL (encWordL w) = w := by
  unfold decodeWordL encWordL
  rw [splitWS_joinWith (w.map charToMorse) ?_]
  · rw [List.map_map]
    rw [show w.map (mapGetL ∘ charToMorse) = w.map (fun c => [c]) from
      List.map_congr_left (fun c hc => (covered_char_props (hcov c hc)).1)]
    exact flatten_singletons w
  · intro x hx
    obtain ⟨c, hc, rfl⟩ := List.mem_map.mp hx
    obtain ⟨-, hne, hsp, -⟩ := covered_char_props (hcov c hc)
    exact ⟨hne, hsp⟩

/-- The reference encoding of a nonempty covered word is nonempty, has no two
adjacent blanks, and neither starts nor ends with whitespace. -/
lemma encWordL_facts (w : List Char) (hw : w ≠ []) (hcov : ∀ c ∈ w, covered c) :
    encWordL w ≠ [] ∧ noDouble (encWordL w) ∧
    (∀ c, (encWordL w).head? = some c → isPySpace c = false) ∧
    (∀ c, (encWordL w).getLast? = some c → isPySpace c = false) := by
  have hcomp : ∀ x ∈ w.map charToMorse, x ≠ [] ∧ ∀ ch ∈ x, isPySpace ch = false := by
    intro x hx
    obtain ⟨c, hc, rfl⟩ := List.mem_map.mp hx
    obtain ⟨-, hne, hsp, -⟩ := covered_char_props (hcov c hc)
    exact ⟨hne, hsp⟩
  obtain ⟨hh, hl⟩ := joinWith_ends [' '] (w.map charToMorse)
    (fun x hx => (hcomp x hx).1)
    (fun x hx c hc => (hcomp x hx).2 c (List.mem_of_mem_head? hc))
    (fun x hx c hc => (hcomp x hx).2 c (List.mem_of_getLast?_eq_some hc))
  refine ⟨?_, joinWith_blank_noDouble (w.map charToMorse) hcomp, hh, hl⟩
  rcases w with _ | ⟨c, w2⟩
  · exact absurd rfl hw
  · exact joinWith_ne_nil [' '] (charToMorse c) (w2.map charToMorse)
      ((hcomp (charToMorse c) (by simp)).1)

/-- Shape facts for all word encodings of a covered text. -/
lemma encWords_facts (ws : List (List Char))
    (h : ∀ w ∈ ws, w ≠ [] ∧ ∀ c ∈ w, covered c) :
    ∀ x ∈ ws.map encWordL, x ≠ [] ∧ noDouble x ∧
      (∀ c, x.head? = some c → isPySpace c = false) ∧
      (∀ c, x.getLast? = some c → isPySpace c = false) := by
  intro x hx
  obtain ⟨w, hw, rfl⟩ := List.mem_map.mp hx
  obtain ⟨hne, hcov⟩ := h w hw
  exact encWordL_facts w hne hcov

/-- Stripping the reference encoding does nothing. -/
lemma pyStrip_encode (ws : List (List Char))
    (h : ∀ w ∈ ws, w ≠ [] ∧ ∀ c ∈ w, covered c) :
    pyStripL (encode_reference ws) = encode_reference ws := by
  have hf := encWords_facts ws h
  obtain ⟨hh, hl⟩ := joinWith_ends [' ', ' ', ' '] (ws.map encWordL)
    (fun x hx => (hf x hx).1)
    (fun x hx => (hf x hx).2.2.1)
    (fun x hx => (hf x hx).2.2.2)
  exact pyStrip_of_clean _ hh hl

/-- `split3` recovers the word encodings from the reference encoding. -/
lemma split3_encode : ∀ (ws : List (List Char)),
    (∀ w ∈ ws, w ≠ [] ∧ ∀ c ∈ w, covered c) → ws ≠ [] →
    split3 (encode_reference ws) = ws.map encWordL := by
  intro ws
  induction ws with
  | nil =>
    intro _ hne
    exact absurd rfl hne
  | cons w ws2 ih =>
    intro h _
    obtain ⟨hne, hcov⟩ := h w (by simp)
    obtain ⟨hwne, hnd, hhead, hlast⟩ := encWordL_facts w hne hcov
    cases ws2 with
    | nil =>
      show split3 (encWordL w) = [encWordL w]
      exact split3_noDouble hnd
    | cons w2 ws3 =>
      show split3 ((encWordL w ++ [' ', ' ', ' '])
            ++ joinWith [' ', ' ', ' '] ((w2 :: ws3).map encWordL))
          = encWordL w :: (w2 :: ws3).map encWordL
      rw [List.append_assoc]
      rw [show ([' ', ' ', ' '] : List Char)
            ++ joinWith [' ', ' ', ' '] ((w2 :: ws3).map encWordL)
          = ' ' :: ' ' :: ' ' :: joinWith [' ', ' ', ' '] ((w2 :: ws3).map encWordL)
        from rfl]
      rw [split3_sep (encWordL w).length (encWordL w) _ le_rfl hnd
        (fun c hc => blank_ne_of_not_space (hlast c hc))]
      rw [show joinWith [' ', ' ', ' '] ((w2 :: ws3).map encWordL)
          = encode_reference (w2 :: ws3) from rfl]
      rw [ih (fun x hx => h x (by simp [hx])) (by simp)]

/-- Decoding the reference encoding of a covered text recovers the text (its
words joined by single blanks). -/
lemma decodeL_encode (ws : List (List Char))
    (h : ∀ w ∈ ws, w ≠ [] ∧ ∀ c ∈ w, covered c) :
    decodeL (encode_reference ws) = joinWith [' '] ws := by
  rw [decodeL_joinWith, pyStrip_encode ws h]
  cases ws with
  | nil => rfl
  | cons w ws2 =>
    rw [split3_encode (w :: ws2) h (by simp)]
    rw [List.map_map]
    rw [show (w :: ws2).map (decodeWordL ∘ encWordL) = (w :: ws2).map id from
      List.map_congr_left (fun x hx => by
        obtain ⟨hne, hcov⟩ := h x hx
        exact decodeWordL_encWordL x hne hcov)]
    rw [List.map_id]
    have hfacts : ∀ x ∈ (w :: ws2), x ≠ [] ∧ ∀ c ∈ x, isPySpace c = false := by
      intro x hx
      obtain ⟨hne2, hcov⟩ := h x hx
      exact ⟨hne2, fun c hc => (covered_char_props (hcov c hc)).2.2.2⟩
    obtain ⟨hh, hl⟩ := joinWith_ends [' '] (w :: ws2)
      (fun x hx => (hfacts x hx).1)
      (fun x hx c hc => (hfacts x hx).2 c (List.mem_of_mem_head? hc))
      (fun x hx c hc => (hfacts x hx).2 c (List.mem_of_getLast?_eq_some hc))
    exact pyStrip_of_clean _ hh hl

/-! ## The round-trip claim C5 -/

/-- C5: for every text whose words are nonempty and consist solely of
characters covered by the code table, decoding the reference encoding (each
character mapped to its canonical Morse string, letters joined by single
blanks, words by triple blanks) recovers the original text, its words joined
by single blanks. -/
theorem C5_roundtrip (ws : List (List Char))
    (h : ∀ w ∈ ws, w ≠ [] ∧ ∀ c ∈ w, covered c) :
    decode_morse_code (String.mk (encode_reference ws))
      = String.mk (joinWith [' '] ws) := by
  unfold decode_morse_code
  rw [show (String.mk (encode_reference ws)).data = encode_reference ws from rfl]
  rw [decodeL_encode ws h]

/-- C5 witness: the two-word text `SOS OK` survives the round trip. -/
theorem C5_witness :
    (∀ w ∈ [("SOS" : String).data, ("OK" : String).data],
      w ≠ [] ∧ ∀ c ∈ w, covered c) ∧
    decode_morse_code (String.mk (encode_reference ["SOS".data, "OK".data]))
      = String.mk (joinWith [' '] ["SOS".data, "OK".data]) :=
  ⟨by decide, C5_roundtrip ["SOS".data, "OK".data] (by decide)⟩
